import Mathlib

/-!
Verification of the babappa recombination-block pipeline.

The Python sources embedded here:
* `babappa_clipgard_py/split_recombination_blocks.py`
  (`read_blocks_from_breakpointData`, `infer_scale_factor`,
  `adjust_to_codon_boundaries`, the block construction in `split_by_gard_json`);
* `babappa_clipgard_py/filter_blocks.py` (`has_stop_codon`, `check_block`, `main`);
* `babappa_clipgard_py/lrt_bh_correction.py` (per-gene branch / branch-site LRT);
* `babappa_clipgard_py/lrt_bh_correction.sitemodel.py` (site-model LRT);
* the Benjamini-Hochberg correction used through
  `statsmodels.stats.multitest.multipletests(method="fdr_bh")`.

Machine integers are `ℤ`/`ℕ`; Python `%` on a positive modulus agrees with
`Int.emod`, which is Lean's `%` on `ℤ`.  Log-likelihoods and p-values are `ℚ`.
-/

namespace Babappa

/-! ### split_recombination_blocks.py -/

/-- `adjust_to_codon_boundaries(start_nt, end_nt, aln_len_nt)`:
move `start_nt` up to the next codon start, move `end_nt` down to the previous
codon end, then clamp both into `[1, aln_len_nt]`.  Returns
`(start_nt, end_nt, trim_start, trim_end)`. -/
def adjust_to_codon_boundaries (start_nt end_nt aln_len_nt : ℤ) : ℤ × ℤ × ℤ × ℤ :=
  let orig_start := start_nt
  let orig_end := end_nt
  let s1 := if (start_nt - 1) % 3 ≠ 0 then start_nt + (3 - ((start_nt - 1) % 3)) else start_nt
  let e1 := if end_nt % 3 ≠ 0 then end_nt - (end_nt % 3) else end_nt
  let s2 := max 1 (min s1 aln_len_nt)
  let e2 := max 1 (min e1 aln_len_nt)
  (s2, e2, s2 - orig_start, orig_end - e2)

/-- `infer_scale_factor(seq_len_nt, gard_json)`: the `"number of sites"` field of
the GARD JSON is `some n` when it is present and is a Python `int`, `none` when
it is missing or not an integer.  Returns `seq_len_nt // n_sites` when the site
count is a positive integer dividing `seq_len_nt`, and `1` otherwise. -/
def infer_scale_factor (seq_len_nt : ℕ) (n_sites : Option ℤ) : ℕ :=
  match n_sites with
  | some n => if 0 < n ∧ (seq_len_nt : ℤ) % n = 0 then seq_len_nt / n.toNat else 1
  | none => 1

/-- Lexicographic `≤` on integer pairs: the key `lambda x: (x[0], x[1])` used by
`sorted` in `read_blocks_from_breakpointData`. -/
def pairLe (a b : ℤ × ℤ) : Prop :=
  a.1 < b.1 ∨ (a.1 = b.1 ∧ a.2 ≤ b.2)

instance : DecidableRel pairLe := fun a b => by
  unfold pairLe; infer_instance

instance : IsTotal (ℤ × ℤ) pairLe :=
  ⟨fun a b => by unfold pairLe; omega⟩

instance : IsTrans (ℤ × ℤ) pairLe :=
  ⟨fun a b c hab hbc => by unfold pairLe at *; omega⟩

/-- Key-order `≤` on `breakpointData` entries: `sorted(bpdata.keys(), key=int)`. -/
def keyLe (a b : ℤ × List (List ℤ)) : Prop := a.1 ≤ b.1

instance : DecidableRel keyLe := fun a b => by
  unfold keyLe; infer_instance

instance : IsTotal (ℤ × List (List ℤ)) keyLe :=
  ⟨fun a b => by unfold keyLe; omega⟩

instance : IsTrans (ℤ × List (List ℤ)) keyLe :=
  ⟨fun a b c hab hbc => by unfold keyLe at *; omega⟩

/-- The body of the inner loop of `read_blocks_from_breakpointData`: a range
is kept when it is a two-element list `[start, end]` with `start <= end`. -/
def parse_range (rng : List ℤ) : Option (ℤ × ℤ) :=
  match rng with
  | [s, e] => if s ≤ e then some (s, e) else none
  | _ => none

/-- `read_blocks_from_breakpointData(gard_json)`: `bpdata` maps integer keys to
objects whose `"bps"` field is a list of integer lists.  Keys are visited in
numeric order; a range is kept when it has exactly two elements `start ≤ end`;
the kept `(start, end)` pairs are deduplicated (`set`) and sorted by
`(start, end)`. -/
def read_blocks_from_breakpointData (bpdata : List (ℤ × List (List ℤ))) : List (ℤ × ℤ) :=
  let sortedEntries := bpdata.insertionSort keyLe
  let blocks := sortedEntries.flatMap fun kv => kv.2.filterMap parse_range
  blocks.dedup.insertionSort pairLe

/-- Move `x` up to the next codon start (`1 mod 3`) at or above it, as the
start-adjustment branch of `adjust_to_codon_boundaries` computes it. -/
def codon_ceil (x : ℤ) : ℤ :=
  if (x - 1) % 3 ≠ 0 then x + (3 - (x - 1) % 3) else x

/-- Move `x` down to the previous codon end (`0 mod 3`) at or below it, as the
end-adjustment branch of `adjust_to_codon_boundaries` computes it. -/
def codon_floor (x : ℤ) : ℤ :=
  if x % 3 ≠ 0 then x - x % 3 else x

/-- The raw nucleotide interval computed in `split_by_gard_json` before
`adjust_to_codon_boundaries` is called:
`start_nt = (cs - 1) * scale + 1`, `end_nt = ce * scale`. -/
def raw_interval (cs ce scale : ℤ) : ℤ × ℤ :=
  ((cs - 1) * scale + 1, ce * scale)

/-- Clamp `x` into `[1, L]` as the source writes it: `max(1, min(x, L))`. -/
def clamp1 (x L : ℤ) : ℤ := max 1 (min x L)

/-- The raw interval as the spec's words describe it (`((cs-1)*s+1, ce*s)`
clamped to `[1, L]` before codon-trimming); written only to be compared with
`raw_interval`, which follows the source. -/
def raw_interval_specClamped (cs ce scale L : ℤ) : ℤ × ℤ :=
  (clamp1 ((cs - 1) * scale + 1) L, clamp1 (ce * scale) L)

/-- One entry of `nt_blocks` in `split_by_gard_json`:
`(cs, ce, start_nt, end_nt, trim_start, trim_end)`. -/
structure NtBlock where
  cs : ℤ
  ce : ℤ
  snt : ℤ
  ent : ℤ
  trim_start : ℤ
  trim_end : ℤ
  deriving Repr, DecidableEq

/-- The `nt_blocks` list of `split_by_gard_json`: each codon block `(cs, ce)` is
mapped to nucleotides, adjusted to codon boundaries, and kept when
`start_nt <= end_nt`. -/
def nt_blocks (scale L : ℤ) (codon_blocks : List (ℤ × ℤ)) : List NtBlock :=
  codon_blocks.filterMap fun p =>
    let r := raw_interval p.1 p.2 scale
    let a := adjust_to_codon_boundaries r.1 r.2 L
    if a.1 ≤ a.2.1 then
      some ⟨p.1, p.2, a.1, a.2.1, a.2.2.1, a.2.2.2⟩
    else none

/-- The blocks `split_by_gard_json` actually writes to FASTA files: entries of
`nt_blocks` whose adjusted length `ent - snt + 1` is not below 3; a shorter
block is skipped with a log message. -/
def written_blocks (scale L : ℤ) (codon_blocks : List (ℤ × ℤ)) : List NtBlock :=
  (nt_blocks scale L codon_blocks).filter fun b => ¬ (b.ent - b.snt + 1 < 3)

/-- The sequence written for one record in one block:
`rec.seq[snt-1:ent]` on a sequence of characters. -/
def block_seq (seq : List Char) (b : NtBlock) : List Char :=
  (seq.drop (b.snt - 1).toNat).take (b.ent - (b.snt - 1)).toNat

/-! ### String helpers

Python string primitives used by the scripts, computed on the underlying
character lists so that concrete instances evaluate. -/

/-- `a.endswith(suf)` on Python strings. -/
def str_endsWith (a suf : String) : Bool :=
  suf.data.isSuffixOf a.data

/-- `s[:len(s)-n]`: drop the last `n` characters. -/
def str_dropRight (a : String) (n : ℕ) : String :=
  String.mk (a.data.take (a.data.length - n))

/-- `s.strip()`: remove whitespace from both ends. -/
def str_strip (s : String) : String :=
  String.mk (((s.data.dropWhile Char.isWhitespace).reverse.dropWhile
    Char.isWhitespace).reverse)

/-- `s.rstrip(":")`: remove all trailing colons. -/
def str_rstrip_colon (s : String) : String :=
  String.mk ((s.data.reverse.dropWhile (fun c => c == ':')).reverse)

/-! ### filter_blocks.py -/

/-- One FASTA record: identifier and sequence. -/
structure FastaRecord where
  id : String
  seq : List Char
  deriving Repr, DecidableEq

/-- The three canonical stop triplets, upper case. -/
def stop_codons : List (List Char) :=
  [['T', 'A', 'A'], ['T', 'A', 'G'], ['T', 'G', 'A']]

/-- `has_stop_codon(seq)`: scan codons starting at offsets `0, 3, 6, …` while a
full codon remains (`range(0, len(seq) - 2, 3)`), upper-casing each; trailing
one or two characters are never examined. -/
def has_stop_codon : List Char → Bool
  | c1 :: c2 :: c3 :: rest =>
      if [c1.toUpper, c2.toUpper, c3.toUpper] ∈ stop_codons then true
      else has_stop_codon rest
  | _ => false

/-- `check_block(filepath)` after parsing: empty record list is invalid
(`"empty alignment"`); a first-record length not divisible by 3 is invalid;
the first record containing an in-frame stop codon makes the file invalid with
a reason naming that record; otherwise the file is valid. -/
def check_block (records : List FastaRecord) : Bool × String :=
  match records with
  | [] => (false, "empty alignment")
  | r0 :: _ =>
    let length := r0.seq.length
    if length % 3 ≠ 0 then
      (false, "length " ++ toString length ++ " not divisible by 3")
    else
      match records.find? (fun r => has_stop_codon r.seq) with
      | some r => (false, "stop codon found in " ++ r.id)
      | none => (true, "valid")

/-- One block file as `main` sees it: the basename of its parent directory
(the organism), its file name, and its parsed records. -/
structure BlockFile where
  organism : String
  name : String
  records : List FastaRecord
  deriving Repr, DecidableEq

def DISCARD_DIR : String := "discarded_blocks"

/-- The file-system effect of `filter_blocks.main` on one walk:
files whose name does not end in `.fas` are ignored, valid files are kept in
place, invalid files are moved (removed from their location) into
`DISCARD_DIR/<organism>/<name>`.  Returns (files kept in place, moved files
with their destination directory). -/
def filter_blocks_main (files : List BlockFile) :
    List BlockFile × List (String × BlockFile) :=
  files.foldl
    (fun acc f =>
      if ¬ str_endsWith f.name ".fas" then acc
      else if (check_block f.records).1 then (acc.1 ++ [f], acc.2)
      else (acc.1, acc.2 ++ [(DISCARD_DIR ++ "/" ++ f.organism, f)]))
    ([], [])

/-- The batch walk of `filter_blocks.main` when parsing itself may raise: each
`.fas` file comes with its parse outcome (`Except.error` models an exception
escaping `SeqIO.parse`/`check_block`).  `main` installs no handler, so an
exception on one file propagates and the remaining files are never
validated. -/
def filter_blocks_batch :
    List (String × Except String (List FastaRecord)) →
      Except String (List (String × Bool × String))
  | [] => Except.ok []
  | f :: rest =>
    match f.2 with
    | Except.error e => Except.error e
    | Except.ok recs =>
      match filter_blocks_batch rest with
      | Except.error e => Except.error e
      | Except.ok rs =>
        Except.ok ((f.1, (check_block recs).1, (check_block recs).2) :: rs)

/-- The record list an exception-free parse outcome carries. -/
def parse_outcome_records : Except String (List FastaRecord) → List FastaRecord
  | Except.ok rs => rs
  | Except.error _ => []

/-! ### lrt_bh_correction.py (per-gene branch / branch-site mode) -/

/-- One row of the batch CSV: the `Analysis` label and its `lnL`. -/
structure LrtRow where
  analysis : String
  lnL : ℚ
  deriving Repr, DecidableEq

/-- `df["Analysis"].str.replace(r'(_B|_BS|_BS_NULL)$', '', regex=True)`:
strip exactly one of the suffixes `_B`, `_BS`, `_BS_NULL` from the end of the
label (no label ends with two of them at once). -/
def gene_of (a : String) : String :=
  if str_endsWith a "_BS_NULL" then str_dropRight a 8
  else if str_endsWith a "_BS" then str_dropRight a 3
  else if str_endsWith a "_B" then str_dropRight a 2
  else a

/-- First row carrying a given `Analysis` label (`df[df["Analysis"] == name]`
followed by `.iloc[0]`). -/
def find_analysis (df : List LrtRow) (name : String) : Option LrtRow :=
  df.find? (fun r => r.analysis == name)

/-- `df["Gene"].unique()`: gene names in first-occurrence order. -/
def unique_genes (df : List LrtRow) : List String :=
  (df.map (fun r => gene_of r.analysis)).dedup

/-- One branch-site comparison result (`{gene}_BS` vs `{gene}_BS_NULL`). -/
structure BSResult where
  gene : String
  lnL_bs : ℚ
  lnL_null : ℚ
  lrt : ℚ
  deriving Repr, DecidableEq

/-- One branch comparison result (`{gene}_B` vs the global `M0`). -/
structure BResult where
  gene : String
  lnL_b : ℚ
  lnL_m0 : ℚ
  lrt : ℚ
  deriving Repr, DecidableEq

/-- What `lrt_bh_correction.py` produces for one CSV file: `skipped` when the
`continue` for a missing `M0` row is taken, otherwise the branch-site and
branch result lists. -/
inductive FileOutcome where
  | skipped : FileOutcome
  | results : List BSResult → List BResult → FileOutcome
  deriving Repr, DecidableEq

/-- The per-file body of the loop in `lrt_bh_correction.py`: find `M0`
(`continue` on the whole file when absent), then for each unique
gene compute the branch-site pair (`{gene}_BS` vs `{gene}_BS_NULL`, both halves
required) and the branch comparison (`{gene}_B` vs `M0`), with
`LRT = 2 * (lnL_alt - lnL_null)`. -/
def process_lrt_file (df : List LrtRow) : FileOutcome :=
  match find_analysis df "M0" with
  | none => FileOutcome.skipped
  | some m0 =>
    let genes := unique_genes df
    let bs := genes.filterMap fun g =>
      match find_analysis df (g ++ "_BS"), find_analysis df (g ++ "_BS_NULL") with
      | some b, some n => some ⟨g, b.lnL, n.lnL, 2 * (b.lnL - n.lnL)⟩
      | _, _ => none
    let br := genes.filterMap fun g =>
      match find_analysis df (g ++ "_B") with
      | some b => some ⟨g, b.lnL, m0.lnL, 2 * (b.lnL - m0.lnL)⟩
      | none => none
    FileOutcome.results bs br

/-! ### lrt_bh_correction.sitemodel.py (per-site-model mode, refined backend) -/

/-- One row of the site-model CSV: `Model`, `lnL`, `np`. -/
structure SiteRow where
  model : String
  lnL : ℚ
  np : ℚ
  deriving Repr, DecidableEq

/-- `df["Model"].str.strip().str.rstrip(":")`: trim surrounding whitespace,
then remove all trailing colons. -/
def clean_model (s : String) : String :=
  str_rstrip_colon (str_strip s)

/-- The four fixed site-model comparisons `(null, alternative)`. -/
def site_comparisons : List (String × String) :=
  [("Model 0", "Model 1"), ("Model 1", "Model 2"),
   ("Model 0", "Model 3"), ("Model 7", "Model 8")]

/-- One site-model LRT result row (p-value via `chi2.sf` not modelled). -/
structure SiteLrtResult where
  nullModel : String
  altModel : String
  lrt : ℚ
  df_diff : ℚ
  deriving Repr, DecidableEq

/-- The table after `df["Model"] = df["Model"].str.strip().str.rstrip(":")`. -/
def site_cleaned (df : List SiteRow) : List SiteRow :=
  df.map fun r => { r with model := clean_model r.model }

/-- The comparisons loop: for each of the four fixed pairs, when both cleaned
model labels occur in the table take the first matching rows and record
`LRT = 2 * (lnL1 - lnL0)` and `df = np1 - np0`; otherwise the pair is skipped. -/
def site_lrt_results (df : List SiteRow) : List SiteLrtResult :=
  site_comparisons.filterMap fun c =>
    match (site_cleaned df).find? (fun r => r.model == c.1),
          (site_cleaned df).find? (fun r => r.model == c.2) with
    | some r0, some r1 => some ⟨c.1, c.2, 2 * (r1.lnL - r0.lnL), r1.np - r0.np⟩
    | _, _ => none

/-- Outcome of the site-model script after the loop: with zero resolved pairs
it prints `"No valid LRT comparisons found. BH correction skipped."` and exits
with status 0; otherwise it carries the result rows into BH correction. -/
inductive SiteOutcome where
  | noComparisons : SiteOutcome
  | results : List SiteLrtResult → SiteOutcome
  deriving Repr, DecidableEq

/-- `if not lrt_results: print(...); sys.exit(0)` — an empty comparison list is
a clean exit, not an exception. -/
def run_site_model (df : List SiteRow) : SiteOutcome :=
  let rs := site_lrt_results df
  if rs = [] then SiteOutcome.noComparisons else SiteOutcome.results rs

/-! ### Benjamini-Hochberg correction (`multipletests(..., method="fdr_bh")`) -/

/-- Ordering of `(original index, p-value)` pairs by p-value, used to sort the
batch ascending. -/
def bhLe (a b : ℕ × ℚ) : Prop := a.2 ≤ b.2

instance : DecidableRel bhLe := fun a b => by
  unfold bhLe; infer_instance

instance : IsTotal (ℕ × ℚ) bhLe :=
  ⟨fun a b => le_total a.2 b.2⟩

instance : IsTrans (ℕ × ℚ) bhLe :=
  ⟨fun _ _ _ hab hbc => le_trans hab hbc⟩

instance : IsRefl (ℕ × ℚ) bhLe :=
  ⟨fun a => le_refl a.2⟩

/-- Modelled from the spec: the p-values of one batch paired with their
original positions and sorted ascending by p-value.  The implementation of
`statsmodels.stats.multitest.multipletests` is not part of this repository. -/
def bh_sorted (ps : List ℚ) : List (ℕ × ℚ) :=
  ps.enum.insertionSort bhLe

/-- Modelled from the spec: the candidate value `p_j * m / j` for the sorted
p-value of 1-indexed rank `j` (`m` = number of tests in the batch). -/
def bh_cands (ps : List ℚ) : List ℚ :=
  (bh_sorted ps).enum.map fun e => e.2.2 * (ps.length : ℚ) / ((e.1 : ℚ) + 1)

/-- Minimum of the suffix `l.drop i` (0 on an empty suffix): the
`min over j >= i` of the step-up rule, which is what enforcing monotonicity
from the top rank downwards computes. -/
def min_from (l : List ℚ) (i : ℕ) : ℚ :=
  match l.drop i with
  | [] => 0
  | x :: xs => xs.foldl min x

/-- Modelled from the spec: the Benjamini-Hochberg adjusted p-values, in the
original order of the batch — the adjusted value of the input at position `k`
is `min over j >= rank(k)` of `p_(j) * m / j`, mapped back by locating `k`
among the sorted pairs.  `multipletests(ps, method="fdr_bh")[1]`, whose source
is not in this repository. -/
def fdr_bh (ps : List ℚ) : List ℚ :=
  (List.range ps.length).map fun k =>
    match (bh_sorted ps).findIdx? (fun e => e.1 == k) with
    | some i => min_from (bh_cands ps) i
    | none => 0

/-! ## Theorems -/

/-- **C9.** Scale-factor inference is total (it never raises) and fails safe:
with `"number of sites"` read as `some n` exactly when the field is an integer,
the result is `L / n` when `n` is a positive integer dividing `L` (so that the
factor times the site count recovers `L`), and `1` in every other case —
missing or non-integer field, non-positive count, or count not dividing `L`. -/
theorem C9_infer_scale_factor (L : ℕ) (ns : Option ℤ) :
    (∀ n : ℤ, ns = some n → 0 < n → n.toNat ∣ L →
      infer_scale_factor L ns = L / n.toNat ∧
      infer_scale_factor L ns * n.toNat = L) ∧
    ((ns = none ∨ ∃ n : ℤ, ns = some n ∧ (n ≤ 0 ∨ ¬ n.toNat ∣ L)) →
      infer_scale_factor L ns = 1) := by
  constructor
  · rintro n rfl hn hdvd
    have hmod : (L : ℤ) % n = 0 := by
      obtain ⟨c, hc⟩ := hdvd
      have hLc : (L : ℤ) = n * c := by
        push_cast [hc]
        rw [Int.toNat_of_nonneg hn.le]
      exact Int.emod_eq_zero_of_dvd ⟨c, hLc⟩
    have hres : infer_scale_factor L (some n) = L / n.toNat := by
      simp [infer_scale_factor, hn, hmod]
    refine ⟨hres, ?_⟩
    rw [hres, Nat.div_mul_cancel hdvd]
  · rintro (rfl | ⟨n, rfl, hbad⟩)
    · rfl
    · rcases hbad with hle | hndvd
      · simp [infer_scale_factor, not_lt.mpr hle]
      · have : ¬ ((L : ℤ) % n = 0) ∨ ¬ 0 < n := by
          by_cases hn : 0 < n
          · left
            intro hmod
            apply hndvd
            have : (n.toNat : ℤ) ∣ (L : ℤ) := by
              rw [Int.toNat_of_nonneg hn.le]
              exact Int.dvd_of_emod_eq_zero hmod
            exact_mod_cast this
          · right; exact hn
        rcases this with h | h
        · simp only [infer_scale_factor]
          rw [if_neg]
          tauto
        · simp [infer_scale_factor, h]

/-- Witness for C9 at `L = 12`, `n = 3`: the inferred factor is `12 / 3 = 4`
and `4 * 3 = 12`. -/
theorem C9_infer_scale_factor_witness :
    infer_scale_factor 12 (some 3) = 12 / 3 ∧
    infer_scale_factor 12 (some 3) * (3 : ℤ).toNat = 12 :=
  (C9_infer_scale_factor 12 (some 3)).1 3 rfl (by decide) (by decide)

/-- **C2, counterexample.** The raw nucleotide interval computed by
`split_by_gard_json` before codon-trimming is *not* clamped to `[1, L]`: with
`scale = 1`, native interval `(1, 5)` and `L = 3` the code produces `(1, 5)`
where the claim requires `(1, 3)`; moreover pre-clamping is observable — with
raw interval `(1, 6)` and `L = 4`, trimming-then-clamping (the code) yields
end `4` while clamping-then-trimming-then-clamping (the claim) yields end `3`. -/
theorem C2_counterexample :
    raw_interval 1 5 1 ≠ raw_interval_specClamped 1 5 1 3 ∧
    adjust_to_codon_boundaries 1 6 4 ≠
      adjust_to_codon_boundaries (clamp1 1 4) (clamp1 6 4) 4 := by
  decide

/-- **C2 (amended).** The raw interval before codon-trimming equals
`((cs-1)*s+1, ce*s)` with no clamping; clamping into `[1, L]` is applied
exactly once, inside `adjust_to_codon_boundaries`, *after* the codon trim:
the adjusted start is `clamp1 (codon_ceil raw_start) L` and the adjusted end
is `clamp1 (codon_floor raw_end) L`. -/
theorem C2_raw_interval_unclamped (cs ce scale L : ℤ) :
    raw_interval cs ce scale = ((cs - 1) * scale + 1, ce * scale) ∧
    (adjust_to_codon_boundaries ((cs - 1) * scale + 1) (ce * scale) L).1 =
      clamp1 (codon_ceil ((cs - 1) * scale + 1)) L ∧
    (adjust_to_codon_boundaries ((cs - 1) * scale + 1) (ce * scale) L).2.1 =
      clamp1 (codon_floor (ce * scale)) L := by
  refine ⟨rfl, ?_, ?_⟩ <;>
    simp only [adjust_to_codon_boundaries, codon_ceil, codon_floor, clamp1]

/-- **C8, counterexample.** The codon-boundary adjustment is not idempotent on
the interval it returns: with alignment length `4`, the interval `(1, 6)` is
adjusted to `(1, 4)`, but re-adjusting `(1, 4)` yields end `3 ≠ 4` (clamping
to an alignment length that is not a codon multiple can land the end off a
codon boundary). -/
theorem C8_counterexample :
    (adjust_to_codon_boundaries 1 6 4).1 = 1 ∧
    (adjust_to_codon_boundaries 1 6 4).2.1 = 4 ∧
    ¬ ((adjust_to_codon_boundaries 1 4 4).1 = 1 ∧
       (adjust_to_codon_boundaries 1 4 4).2.1 = 4) := by
  decide

/-- **C8 (amended).** When the alignment length is a codon multiple
(`3 ∣ L`), the adjustment is idempotent on the `(start, end)` pair it
returns: re-applying `adjust_to_codon_boundaries` to an adjusted interval
changes nothing. -/
theorem C8_adjust_idempotent (s e L : ℤ) (hL : 3 ∣ L) :
    ((adjust_to_codon_boundaries
        (adjust_to_codon_boundaries s e L).1
        (adjust_to_codon_boundaries s e L).2.1 L).1,
     (adjust_to_codon_boundaries
        (adjust_to_codon_boundaries s e L).1
        (adjust_to_codon_boundaries s e L).2.1 L).2.1) =
    ((adjust_to_codon_boundaries s e L).1,
     (adjust_to_codon_boundaries s e L).2.1) := by
  obtain ⟨k, rfl⟩ := hL
  simp only [adjust_to_codon_boundaries, Prod.mk.injEq]
  split_ifs <;> omega

/-- Witness for C8 at `(s, e, L) = (2, 8, 9)`: `3 ∣ 9`, and re-adjusting the
adjusted interval is the identity. -/
theorem C8_adjust_idempotent_witness :
    ((adjust_to_codon_boundaries
        (adjust_to_codon_boundaries 2 8 9).1
        (adjust_to_codon_boundaries 2 8 9).2.1 9).1,
     (adjust_to_codon_boundaries
        (adjust_to_codon_boundaries 2 8 9).1
        (adjust_to_codon_boundaries 2 8 9).2.1 9).2.1) =
    ((adjust_to_codon_boundaries 2 8 9).1,
     (adjust_to_codon_boundaries 2 8 9).2.1) :=
  C8_adjust_idempotent 2 8 9 (by decide)

/-- When the alignment length is a codon multiple, an adjusted interval that
is long enough to survive the length guard lies inside `[1, L]` and covers a
whole number of codons. -/
theorem adjust_keeps_codon_frame (a b L : ℤ) (hL : 3 ∣ L)
    (h3 : ¬ ((adjust_to_codon_boundaries a b L).2.1 -
             (adjust_to_codon_boundaries a b L).1 + 1 < 3)) :
    3 ∣ ((adjust_to_codon_boundaries a b L).2.1 -
         (adjust_to_codon_boundaries a b L).1 + 1) ∧
    1 ≤ (adjust_to_codon_boundaries a b L).1 ∧
    (adjust_to_codon_boundaries a b L).1 ≤ (adjust_to_codon_boundaries a b L).2.1 ∧
    (adjust_to_codon_boundaries a b L).2.1 ≤ L := by
  obtain ⟨k, rfl⟩ := hL
  dsimp only [adjust_to_codon_boundaries] at *
  split_ifs at * <;> omega

/-- Every entry of `nt_blocks` records the interval returned by
`adjust_to_codon_boundaries` on the raw interval of its codon block. -/
theorem nt_blocks_shape (scale L : ℤ) (codon_blocks : List (ℤ × ℤ))
    (b : NtBlock) (hb : b ∈ nt_blocks scale L codon_blocks) :
    ∃ p : ℤ × ℤ, p ∈ codon_blocks ∧
      b.snt = (adjust_to_codon_boundaries ((p.1 - 1) * scale + 1) (p.2 * scale) L).1 ∧
      b.ent = (adjust_to_codon_boundaries ((p.1 - 1) * scale + 1) (p.2 * scale) L).2.1 := by
  simp only [nt_blocks, List.mem_filterMap, raw_interval] at hb
  obtain ⟨p, hp, hbody⟩ := hb
  split at hbody
  · cases hbody
    exact ⟨p, hp, rfl, rfl⟩
  · simp at hbody

/-- **C1, counterexample.** With alignment length `L = 4` (not a codon
multiple), scale `1` and native block `(1, 6)`, `split_by_gard_json` writes a
block of adjusted interval `(1, 4)` whose sequences have length `4`, which is
neither a multiple of 3 nor prevented by the length guard: clamping to a
non-codon alignment length breaks the multiple-of-3 invariant. -/
theorem C1_counterexample :
    (⟨1, 6, 1, 4, 0, 2⟩ : NtBlock) ∈ written_blocks 1 4 [(1, 6)] ∧
    ((block_seq ['A', 'C', 'G', 'T'] ⟨1, 6, 1, 4, 0, 2⟩).length : ℤ) = 4 ∧
    ¬ (3 : ℤ) ∣ 4 := by
  decide

/-- **C1 (amended).** When the alignment length is a multiple of 3, every
block that `split_by_gard_json` writes has an adjusted interval whose length
`adjusted_end - adjusted_start + 1` is a multiple of 3 and at least 3, the
sequence written for each record of the alignment has exactly that length,
and no block whose adjusted interval length is below 3 nt is ever written. -/
theorem C1_written_block_lengths (scale L : ℤ) (hL : 3 ∣ L)
    (codon_blocks : List (ℤ × ℤ)) :
    (∀ b ∈ written_blocks scale L codon_blocks,
      3 ∣ (b.ent - b.snt + 1) ∧ 3 ≤ b.ent - b.snt + 1 ∧
      ∀ seq : List Char, L ≤ (seq.length : ℤ) →
        ((block_seq seq b).length : ℤ) = b.ent - b.snt + 1) ∧
    ∀ b ∈ nt_blocks scale L codon_blocks,
      b.ent - b.snt + 1 < 3 → b ∉ written_blocks scale L codon_blocks := by
  constructor
  · intro b hb
    have hb' := hb
    simp only [written_blocks, List.mem_filter, decide_eq_true_eq] at hb'
    obtain ⟨hbnt, hlong⟩ := hb'
    obtain ⟨p, _, hsnt, hent⟩ := nt_blocks_shape scale L codon_blocks b hbnt
    have hframe := adjust_keeps_codon_frame ((p.1 - 1) * scale + 1) (p.2 * scale) L hL
      (by rw [← hsnt, ← hent]; exact hlong)
    rw [← hsnt, ← hent] at hframe
    obtain ⟨hdvd, hs1, hse, heL⟩ := hframe
    refine ⟨hdvd, by omega, ?_⟩
    intro seq hseq
    simp only [block_seq, List.length_take, List.length_drop]
    omega
  · intro b hbnt hshort hbw
    simp only [written_blocks, List.mem_filter, decide_eq_true_eq] at hbw
    exact hbw.2 hshort

/-- Witness for C1 at scale 1, `L = 6`, codon blocks `[(1, 5)]`: the single
written block `(1, 3)` covers one whole codon and its written sequence on a
6-nt alignment has exactly that length. -/
theorem C1_written_block_lengths_witness :
    3 ∣ ((3 : ℤ) - 1 + 1) ∧
    ((block_seq ['A', 'C', 'G', 'T', 'T', 'T'] ⟨1, 5, 1, 3, 0, 2⟩).length : ℤ) =
      3 - 1 + 1 :=
  have h := (C1_written_block_lengths 1 6 (by decide) [(1, 5)]).1
    ⟨1, 5, 1, 3, 0, 2⟩ (by decide)
  ⟨h.1, h.2.2 ['A', 'C', 'G', 'T', 'T', 'T'] (by decide)⟩

/-- `has_stop_codon` finds exactly the in-frame stop codons: it returns `true`
iff some offset `3k` admits a full codon inside the sequence whose upper-cased
triplet is one of the canonical stops — the terminal codon included, since
`3k + 3 ≤ length` admits `3k = length - 3`. -/
theorem has_stop_codon_iff (seq : List Char) :
    has_stop_codon seq = true ↔
      ∃ k, 3 * k + 3 ≤ seq.length ∧
        ((seq.drop (3 * k)).take 3).map Char.toUpper ∈ stop_codons := by
  induction seq using has_stop_codon.induct with
  | case1 c1 c2 c3 rest hmem =>
    simp only [has_stop_codon, hmem, if_true, true_iff]
    refine ⟨0, by simp, ?_⟩
    simpa using hmem
  | case2 c1 c2 c3 rest hmem ih =>
    have hstep : has_stop_codon (c1 :: c2 :: c3 :: rest) = has_stop_codon rest := by
      simp [has_stop_codon, hmem]
    rw [hstep, ih]
    constructor
    · rintro ⟨k, hk, hm⟩
      refine ⟨k + 1, by simp; omega, ?_⟩
      have hdrop : List.drop (3 * (k + 1)) (c1 :: c2 :: c3 :: rest) =
          List.drop (3 * k) rest := by
        rw [show 3 * (k + 1) = 3 + 3 * k by ring, ← List.drop_drop]
        rfl
      rw [hdrop]
      exact hm
    · rintro ⟨k, hk, hm⟩
      cases k with
      | zero =>
        exfalso
        apply hmem
        simpa using hm
      | succ j =>
        refine ⟨j, by simp at hk; omega, ?_⟩
        have hdrop : List.drop (3 * (j + 1)) (c1 :: c2 :: c3 :: rest) =
            List.drop (3 * j) rest := by
          rw [show 3 * (j + 1) = 3 + 3 * j by ring, ← List.drop_drop]
          rfl
        rw [hdrop] at hm
        exact hm
  | case3 l h =>
    rcases l with _ | ⟨a, _ | ⟨b, _ | ⟨c, t⟩⟩⟩
    · constructor
      · intro hcon
        exact absurd hcon (by simp [has_stop_codon])
      · rintro ⟨k, hk, _⟩
        exfalso
        simp at hk
    · constructor
      · intro hcon
        exact absurd hcon (by simp [has_stop_codon])
      · rintro ⟨k, hk, _⟩
        exfalso
        simp at hk
    · constructor
      · intro hcon
        exact absurd hcon (by simp [has_stop_codon])
      · rintro ⟨k, hk, _⟩
        exfalso
        simp at hk
    · exact absurd rfl (h a b c t)

/-- `check_block` reports invalid exactly on an empty record list, a first
record whose length is not a codon multiple, or a record with an in-frame
stop codon. -/
theorem check_block_false_iff (records : List FastaRecord) :
    (check_block records).1 = false ↔
      records = [] ∨
      (∃ r0 rest, records = r0 :: rest ∧ ¬ (3 ∣ r0.seq.length)) ∨
      ∃ r ∈ records, has_stop_codon r.seq = true := by
  cases records with
  | nil => simp [check_block]
  | cons r0 rest =>
    simp only [check_block]
    split_ifs with hdiv
    · simp only [true_iff]
      refine Or.inr (Or.inl ⟨r0, rest, rfl, ?_⟩)
      omega
    · cases hfind : (r0 :: rest).find? (fun r => has_stop_codon r.seq) with
      | some r =>
        simp only [true_iff]
        exact Or.inr (Or.inr ⟨r, List.mem_of_find?_eq_some hfind,
          by simpa using List.find?_some hfind⟩)
      | none =>
        constructor
        · intro h
          exact absurd h (by simp)
        · intro h
          exfalso
          rcases h with hnil | ⟨r0', rest', heq, hnd⟩ | ⟨r, hr, hstop⟩
          · exact hnil
          · cases heq
            exact hnd (by omega)
          · have := List.find?_eq_none.mp hfind r hr
            simp [hstop] at this

/-- When a record with a stop codon exists (and the earlier guards pass),
the reason names the first offending record's identifier. -/
theorem check_block_stop_reason (r0 : FastaRecord) (rest : List FastaRecord)
    (r : FastaRecord) (hdiv : r0.seq.length % 3 = 0)
    (hfind : (r0 :: rest).find? (fun r => has_stop_codon r.seq) = some r) :
    check_block (r0 :: rest) = (false, "stop codon found in " ++ r.id) := by
  simp [check_block, hdiv, hfind]

/-- The fold of `filter_blocks.main` keeps exactly the valid `.fas` files in
place and moves exactly the invalid ones, in walk order, into
`discarded_blocks/<organism>`. -/
theorem filter_blocks_main_eq (files : List BlockFile) :
    filter_blocks_main files =
      (files.filter fun f => str_endsWith f.name ".fas" && (check_block f.records).1,
       (files.filter fun f =>
           str_endsWith f.name ".fas" && !(check_block f.records).1).map
         fun f => (DISCARD_DIR ++ "/" ++ f.organism, f)) := by
  have hgen : ∀ (fs : List BlockFile) (acc : List BlockFile × List (String × BlockFile)),
      fs.foldl
        (fun acc f =>
          if ¬ str_endsWith f.name ".fas" then acc
          else if (check_block f.records).1 then (acc.1 ++ [f], acc.2)
          else (acc.1, acc.2 ++ [(DISCARD_DIR ++ "/" ++ f.organism, f)]))
        acc =
      (acc.1 ++ fs.filter fun f => str_endsWith f.name ".fas" && (check_block f.records).1,
       acc.2 ++ (fs.filter fun f =>
           str_endsWith f.name ".fas" && !(check_block f.records).1).map
         fun f => (DISCARD_DIR ++ "/" ++ f.organism, f)) := by
    intro fs
    induction fs with
    | nil => simp
    | cons f t ih =>
      intro acc
      rw [List.foldl_cons]
      by_cases hfas : str_endsWith f.name ".fas"
      · by_cases hok : (check_block f.records).1
        · rw [if_neg (by simp [hfas]), if_pos hok, ih]
          simp [List.filter_cons, hfas, hok, List.append_assoc]
        · rw [if_neg (by simp [hfas]), if_neg hok, ih]
          simp [List.filter_cons, hfas, hok, List.append_assoc]
      · rw [if_pos (by simp [hfas]), ih]
        simp [List.filter_cons, hfas]
  have h0 := hgen files ([], [])
  simp only [List.nil_append] at h0
  exact h0

/-- A range parses to `some (s, e)` exactly when it is the two-element list
`[s, e]` with `s ≤ e`. -/
theorem parse_range_eq_some (rng : List ℤ) (p : ℤ × ℤ) :
    parse_range rng = some p ↔ rng = [p.1, p.2] ∧ p.1 ≤ p.2 := by
  rcases rng with _ | ⟨a, _ | ⟨b, _ | ⟨c, t⟩⟩⟩
  · simp [parse_range]
  · simp [parse_range]
  · simp only [parse_range, List.cons.injEq, and_true]
    split_ifs with hab
    · constructor
      · intro h
        rw [Option.some_inj] at h
        subst h
        exact ⟨⟨rfl, rfl⟩, hab⟩
      · rintro ⟨⟨h1, h2⟩, _⟩
        subst h1; subst h2
        rfl
    · constructor
      · intro h
        exact absurd h (by simp)
      · rintro ⟨⟨h1, h2⟩, hle⟩
        subst h1; subst h2
        exact absurd hle hab
  · simp [parse_range]

/-- Two pairwise relations hold together pairwise. -/
theorem pairwise_and_of_pairwise {α : Type} {R S : α → α → Prop} :
    ∀ {l : List α}, l.Pairwise R → l.Pairwise S →
      l.Pairwise fun a b => R a b ∧ S a b := by
  intro l hR hS
  induction l with
  | nil => exact List.Pairwise.nil
  | cons a t ih =>
    rw [List.pairwise_cons] at hR hS ⊢
    exact ⟨fun b hb => ⟨hR.1 b hb, hS.1 b hb⟩, ih hR.2 hS.2⟩

/-- **C10.** The breakpoint parser is total: a pair `(s, e)` is returned
exactly when some partition's `bps` list contains the two-element range
`[s, e]` with `s ≤ e` (every other entry — wrong arity or `s > e` — is
silently dropped), and the output is strictly sorted by `(start, end)`
(hence deduplicated) across all partitions. -/
theorem C10_read_blocks (bpdata : List (ℤ × List (List ℤ))) :
    (∀ p : ℤ × ℤ,
      p ∈ read_blocks_from_breakpointData bpdata ↔
        (∃ kv ∈ bpdata, [p.1, p.2] ∈ kv.2) ∧ p.1 ≤ p.2) ∧
    (read_blocks_from_breakpointData bpdata).Pairwise
      fun a b => pairLe a b ∧ a ≠ b := by
  constructor
  · intro p
    unfold read_blocks_from_breakpointData
    rw [(List.perm_insertionSort pairLe _).mem_iff, List.mem_dedup,
      List.mem_flatMap]
    constructor
    · rintro ⟨kv, hkv, hp⟩
      rw [List.mem_filterMap] at hp
      obtain ⟨rng, hrng, hparse⟩ := hp
      rw [parse_range_eq_some] at hparse
      exact ⟨⟨kv, (List.perm_insertionSort keyLe _).mem_iff.mp hkv,
        hparse.1 ▸ hrng⟩, hparse.2⟩
    · rintro ⟨⟨kv, hkv, hrng⟩, hle⟩
      refine ⟨kv, (List.perm_insertionSort keyLe _).mem_iff.mpr hkv, ?_⟩
      rw [List.mem_filterMap]
      exact ⟨[p.1, p.2], hrng, (parse_range_eq_some _ _).mpr ⟨rfl, hle⟩⟩
  · apply pairwise_and_of_pairwise
    · exact List.sorted_insertionSort pairLe _
    · exact ((List.perm_insertionSort pairLe _).nodup_iff.mpr
        (List.nodup_dedup _))

/-- Witness for C10: from partitions `{2: [[5, 9]], 1: [[3, 2], [1, 2], [7]]}`
the pair `(5, 9)` is returned — `[3, 2]` (start > end) and `[7]` (wrong
arity) are dropped. -/
theorem C10_read_blocks_witness :
    ((5 : ℤ), (9 : ℤ)) ∈
      read_blocks_from_breakpointData [(2, [[5, 9]]), (1, [[3, 2], [1, 2], [7]])] :=
  ((C10_read_blocks [(2, [[5, 9]]), (1, [[3, 2], [1, 2], [7]])]).1 (5, 9)).mpr
    ⟨⟨(2, [[5, 9]]), by decide, by decide⟩, by decide⟩

/-- **C4 (the code is wrong).** With a batch table holding a complete
branch-site pair `G1_BS` / `G1_BS_NULL` but no `M0` row, the per-file loop of
`lrt_bh_correction.py` takes the `continue` guarding `M0` and produces *no*
results at all — the branch-site comparisons are skipped together with the
branch comparisons, although the script's own message says only
"Skipping branch model analysis", and the same pair *is* computed once an
`M0` row is present. -/
theorem C4_no_M0_skips_branch_site :
    process_lrt_file [⟨"G1_BS", -100⟩, ⟨"G1_BS_NULL", -102⟩] =
      FileOutcome.skipped ∧
    ∀ x y z : ℚ,
      process_lrt_file [⟨"G1_BS", x⟩, ⟨"G1_BS_NULL", y⟩, ⟨"M0", z⟩] =
        FileOutcome.results [⟨"G1", x, y, 2 * (x - y)⟩] [] := by
  exact ⟨rfl, fun x y z => rfl⟩

/-- **C5.** `BlockValidator` classifies a `.fas` block file as invalid iff the
alignment is empty, or the (first) sequence length is not divisible by 3, or
some sequence contains one of the three canonical stop triplets at an in-frame
offset `3k` anywhere in the full sequence (terminal codon included,
case-insensitive); when a stop codon is the reason, the reason names the first
offending sequence identifier.  Every invalid file is moved — it appears under
`discarded_blocks/<organism>` and is gone from its location — and every valid
file remains in place and is never copied to the discard directory. -/
theorem C5_block_validation (files : List BlockFile) (f : BlockFile)
    (hf : f ∈ files) (hfas : str_endsWith f.name ".fas" = true) :
    ((check_block f.records).1 = false ↔
      f.records = [] ∨
      (∃ r0 rest, f.records = r0 :: rest ∧ ¬ (3 ∣ r0.seq.length)) ∨
      ∃ r ∈ f.records, ∃ k, 3 * k + 3 ≤ r.seq.length ∧
        ((r.seq.drop (3 * k)).take 3).map Char.toUpper ∈ stop_codons) ∧
    (∀ r0 rest r, f.records = r0 :: rest → r0.seq.length % 3 = 0 →
      (r0 :: rest).find? (fun s => has_stop_codon s.seq) = some r →
      check_block f.records = (false, "stop codon found in " ++ r.id)) ∧
    ((check_block f.records).1 = false →
      (DISCARD_DIR ++ "/" ++ f.organism, f) ∈ (filter_blocks_main files).2 ∧
      f ∉ (filter_blocks_main files).1) ∧
    ((check_block f.records).1 = true →
      f ∈ (filter_blocks_main files).1 ∧
      ∀ d : String, (d, f) ∉ (filter_blocks_main files).2) := by
  refine ⟨?_, ?_, ?_, ?_⟩
  · rw [check_block_false_iff]
    constructor
    · rintro (h | h | ⟨r, hr, hstop⟩)
      · exact Or.inl h
      · exact Or.inr (Or.inl h)
      · exact Or.inr (Or.inr ⟨r, hr, (has_stop_codon_iff r.seq).mp hstop⟩)
    · rintro (h | h | ⟨r, hr, hoff⟩)
      · exact Or.inl h
      · exact Or.inr (Or.inl h)
      · exact Or.inr (Or.inr ⟨r, hr, (has_stop_codon_iff r.seq).mpr hoff⟩)
  · intro r0 rest r heq hdiv hfind
    rw [heq]
    exact check_block_stop_reason r0 rest r hdiv hfind
  · intro hinv
    rw [filter_blocks_main_eq]
    constructor
    · simp only [List.mem_map]
      refine ⟨f, ?_, rfl⟩
      rw [List.mem_filter]
      exact ⟨hf, by simp [hfas, hinv]⟩
    · intro hkept
      rw [List.mem_filter] at hkept
      simp [hfas, hinv] at hkept
  · intro hval
    rw [filter_blocks_main_eq]
    constructor
    · rw [List.mem_filter]
      exact ⟨hf, by simp [hfas, hval]⟩
    · intro d hmem
      simp only [List.mem_map] at hmem
      obtain ⟨g, hgfil, heq⟩ := hmem
      rw [List.mem_filter] at hgfil
      have hgf : g = f := congrArg Prod.snd heq
      rw [hgf] at hgfil
      simp [hfas, hval] at hgfil

/-- Witness for C5: the file `a.fas` of organism `org1` whose single record
`s1` is the stop codon `TAA` is invalid with reason naming `s1`, and is moved
to `discarded_blocks/org1`. -/
theorem C5_block_validation_witness :
    check_block [⟨"s1", ['T', 'A', 'A']⟩] =
      (false, "stop codon found in " ++ "s1") ∧
    ("discarded_blocks" ++ "/" ++ "org1",
      (⟨"org1", "a.fas", [⟨"s1", ['T', 'A', 'A']⟩]⟩ : BlockFile)) ∈
      (filter_blocks_main [⟨"org1", "a.fas", [⟨"s1", ['T', 'A', 'A']⟩]⟩]).2 :=
  ⟨(C5_block_validation [⟨"org1", "a.fas", [⟨"s1", ['T', 'A', 'A']⟩]⟩]
      ⟨"org1", "a.fas", [⟨"s1", ['T', 'A', 'A']⟩]⟩ (by decide) (by decide)).2.1
    ⟨"s1", ['T', 'A', 'A']⟩ [] ⟨"s1", ['T', 'A', 'A']⟩ rfl (by decide) (by decide),
   ((C5_block_validation [⟨"org1", "a.fas", [⟨"s1", ['T', 'A', 'A']⟩]⟩]
      ⟨"org1", "a.fas", [⟨"s1", ['T', 'A', 'A']⟩]⟩ (by decide) (by decide)).2.2.1
    (by decide)).1⟩

/-- A row belongs to `site_lrt_results` exactly when one of the four fixed
comparisons finds both of its cleaned model labels in the table, with the LRT
and degrees-of-freedom fields computed from the first matching rows. -/
theorem site_lrt_results_mem (df : List SiteRow) (out : SiteLrtResult) :
    out ∈ site_lrt_results df ↔
      ∃ c ∈ site_comparisons, ∃ r0 r1 : SiteRow,
        (site_cleaned df).find? (fun r => r.model == c.1) = some r0 ∧
        (site_cleaned df).find? (fun r => r.model == c.2) = some r1 ∧
        out = ⟨c.1, c.2, 2 * (r1.lnL - r0.lnL), r1.np - r0.np⟩ := by
  simp only [site_lrt_results, List.mem_filterMap]
  constructor
  · rintro ⟨c, hc, hbody⟩
    refine ⟨c, hc, ?_⟩
    cases hf0 : (site_cleaned df).find? (fun r => r.model == c.1) with
    | none =>
      rw [hf0] at hbody
      simp at hbody
    | some r0 =>
      cases hf1 : (site_cleaned df).find? (fun r => r.model == c.2) with
      | none =>
        rw [hf0, hf1] at hbody
        simp at hbody
      | some r1 =>
        rw [hf0, hf1] at hbody
        simp only [Option.some.injEq] at hbody
        exact ⟨r0, r1, rfl, rfl, hbody.symm⟩
  · rintro ⟨c, hc, r0, r1, hf0, hf1, hout⟩
    refine ⟨c, hc, ?_⟩
    rw [hf0, hf1, hout]

/-- **C7.** In per-site-model mode exactly the four comparisons
(0,1), (1,2), (0,3), (7,8) are evaluated: every result row arises from one of
them with `LRT = 2 * (lnL_alt - lnL_null)` and degrees of freedom
`np_alt - np_null` taken from the actual reported parameter counts of the
first matching rows; a pair resolves iff both its model labels occur in the
cleaned table; and a batch where zero pairs resolve produces the clean
`noComparisons` outcome (exit 0, "no comparisons found") rather than an
error, while a non-empty result set is handed on to correction. -/
theorem C7_site_model (df : List SiteRow) :
    (∀ out ∈ site_lrt_results df,
      (out.nullModel, out.altModel) ∈ site_comparisons ∧
      ∃ r0 r1 : SiteRow,
        (site_cleaned df).find? (fun r => r.model == out.nullModel) = some r0 ∧
        (site_cleaned df).find? (fun r => r.model == out.altModel) = some r1 ∧
        out.lrt = 2 * (r1.lnL - r0.lnL) ∧ out.df_diff = r1.np - r0.np) ∧
    (∀ c ∈ site_comparisons,
      (((site_cleaned df).find? (fun r => r.model == c.1)).isSome ∧
       ((site_cleaned df).find? (fun r => r.model == c.2)).isSome) ↔
      ∃ out ∈ site_lrt_results df,
        out.nullModel = c.1 ∧ out.altModel = c.2) ∧
    (site_lrt_results df = [] → run_site_model df = SiteOutcome.noComparisons) ∧
    (site_lrt_results df ≠ [] →
      run_site_model df = SiteOutcome.results (site_lrt_results df)) := by
  refine ⟨?_, ?_, ?_, ?_⟩
  · intro out hout
    obtain ⟨c, hc, r0, r1, hf0, hf1, hout⟩ := (site_lrt_results_mem df out).mp hout
    subst hout
    exact ⟨hc, r0, r1, hf0, hf1, rfl, rfl⟩
  · intro c hc
    constructor
    · rintro ⟨h0, h1⟩
      obtain ⟨r0, hf0⟩ := Option.isSome_iff_exists.mp h0
      obtain ⟨r1, hf1⟩ := Option.isSome_iff_exists.mp h1
      exact ⟨⟨c.1, c.2, 2 * (r1.lnL - r0.lnL), r1.np - r0.np⟩,
        (site_lrt_results_mem df _).mpr ⟨c, hc, r0, r1, hf0, hf1, rfl⟩, rfl, rfl⟩
    · rintro ⟨out, hout, hnull, halt⟩
      obtain ⟨c', _, r0, r1, hf0, hf1, houteq⟩ :=
        (site_lrt_results_mem df out).mp hout
      subst houteq
      simp only at hnull halt
      rw [← hnull, ← halt]
      rw [hf0, hf1]
      exact ⟨rfl, rfl⟩
  · intro h
    simp [run_site_model, h]
  · intro h
    simp [run_site_model, h]

/-- Witness for C7: a table carrying (whitespace- and colon-decorated) rows
for Model 0 and Model 1 resolves a non-empty comparison set and hands it to
correction. -/
theorem C7_site_model_witness :
    site_lrt_results [⟨" Model 0: ", -50, 10⟩, ⟨"Model 1", -48, 12⟩] ≠ [] ∧
    run_site_model [⟨" Model 0: ", -50, 10⟩, ⟨"Model 1", -48, 12⟩] =
      SiteOutcome.results
        (site_lrt_results [⟨" Model 0: ", -50, 10⟩, ⟨"Model 1", -48, 12⟩]) :=
  have hne : site_lrt_results [⟨" Model 0: ", -50, 10⟩, ⟨"Model 1", -48, 12⟩] ≠ [] :=
    fun h => List.noConfusion h
  ⟨hne, (C7_site_model [⟨" Model 0: ", -50, 10⟩, ⟨"Model 1", -48, 12⟩]).2.2.2 hne⟩

/-- **C6, counterexample.** `filter_blocks.main` installs no exception
handler, so an error raised while parsing the first file (here a
`UnicodeDecodeError` from a partially-written binary file) aborts the batch:
the second, perfectly valid file is never validated and the walk ends with
the propagated error. -/
theorem C6_counterexample :
    filter_blocks_batch
      [("recombination_blocks/org1/a.fas", Except.error "UnicodeDecodeError"),
       ("recombination_blocks/org1/b.fas",
        Except.ok [(⟨"s1", ['A', 'T', 'G']⟩ : FastaRecord)])] =
      Except.error "UnicodeDecodeError" := rfl

/-- **C6 (amended).** When no file's parse raises, the batch processes every
file and never aborts; in particular a zero-length file (which parses to an
empty record list) is handled as the invalid classification
`"empty alignment"`, not as a crash.  Errors are *not* isolated per file:
an exception on one file kills the whole batch (see the counterexample). -/
theorem C6_batch_no_abort_when_parses
    (files : List (String × Except String (List FastaRecord)))
    (h : ∀ f ∈ files, ∃ rs, f.2 = Except.ok rs) :
    filter_blocks_batch files =
      Except.ok (files.map fun f =>
        (f.1, (check_block (parse_outcome_records f.2)).1,
              (check_block (parse_outcome_records f.2)).2)) ∧
    check_block [] = (false, "empty alignment") := by
  refine ⟨?_, rfl⟩
  induction files with
  | nil => rfl
  | cons f t ih =>
    obtain ⟨rs, hrs⟩ := h f (List.mem_cons_self f t)
    have hrest := ih fun g hg => h g (List.mem_cons_of_mem f hg)
    simp only [filter_blocks_batch, hrs, hrest, List.map_cons,
      parse_outcome_records]

/-- Witness for C6: a batch of a zero-length file and a valid one-record file
is fully processed, the empty file classified invalid as `"empty alignment"`. -/
theorem C6_batch_witness :
    filter_blocks_batch
        [("x.fas", Except.ok ([] : List FastaRecord)),
         ("y.fas", Except.ok [(⟨"s", ['A', 'A', 'A']⟩ : FastaRecord)])] =
      Except.ok
        ([("x.fas", Except.ok ([] : List FastaRecord)),
          ("y.fas", Except.ok [(⟨"s", ['A', 'A', 'A']⟩ : FastaRecord)])].map
          fun f =>
            (f.1, (check_block (parse_outcome_records f.2)).1,
                  (check_block (parse_outcome_records f.2)).2)) ∧
    check_block [] = (false, "empty alignment") :=
  C6_batch_no_abort_when_parses
    [("x.fas", Except.ok ([] : List FastaRecord)),
     ("y.fas", Except.ok [(⟨"s", ['A', 'A', 'A']⟩ : FastaRecord)])]
    (by
      intro f hf
      cases hf with
      | head => exact ⟨[], rfl⟩
      | tail _ hf2 =>
        cases hf2 with
        | head => exact ⟨[⟨"s", ['A', 'A', 'A']⟩], rfl⟩
        | tail _ hf3 => cases hf3)

/-- A left fold with `min` returns `a` when `a` is among the folded values
(the seed included) and bounds them all from below. -/
theorem foldl_min_eq_of_mem {a x : ℚ} {xs : List ℚ} (hmem : a = x ∨ a ∈ xs)
    (hx : a ≤ x) (hxs : ∀ y ∈ xs, a ≤ y) : xs.foldl min x = a := by
  induction xs generalizing x with
  | nil =>
    rcases hmem with rfl | h
    · rfl
    · exact absurd h (List.not_mem_nil a)
  | cons y ys ih =>
    rw [List.foldl_cons]
    have hy : a ≤ y := hxs y (List.mem_cons_self y ys)
    have hys : ∀ z ∈ ys, a ≤ z := fun z hz => hxs z (List.mem_cons_of_mem y hz)
    rcases hmem with rfl | hmem2
    · exact ih (Or.inl (min_eq_left hy).symm) (le_min le_rfl hy) hys
    · rcases List.mem_cons.mp hmem2 with rfl | hin
      · exact ih (Or.inl (min_eq_right hx).symm) (le_min hx le_rfl) hys
      · exact ih (Or.inr hin) (le_min hx hy) hys

/-- Scaling a nonnegative rational by `m / (j+1)` with `j + 1 ≤ m` does not
decrease it. -/
theorem le_mul_div_of_le {b : ℚ} (hb : 0 ≤ b) {m j : ℕ} (hj : j + 1 ≤ m) :
    b ≤ b * (m : ℚ) / ((j : ℚ) + 1) := by
  rw [le_div_iff₀ (by positivity)]
  have hcast : (j : ℚ) + 1 ≤ (m : ℚ) := by exact_mod_cast hj
  calc b * ((j : ℚ) + 1) ≤ b * (m : ℚ) := by
        exact mul_le_mul_of_nonneg_left hcast hb
    _ = b * (m : ℚ) := rfl

/-- `min_from` on an index inside the list is a fold over the tail of the
suffix seeded with the element at that index. -/
theorem min_from_eq_foldl {l : List ℚ} {i : ℕ} (h : i < l.length) :
    min_from l i = (l.drop (i + 1)).foldl min l[i] := by
  unfold min_from
  rw [List.drop_eq_getElem_cons h]

/-- **C3.** The Benjamini-Hochberg step-up correction preserves batch size
and input order (position `k` of the output is the adjusted value of input
`k`), and the adjusted p-value paired with the largest raw p-value equals
that raw p-value: the rank-`m` candidate is `p_(m) * m / m = p_(m)` and the
suffix minimum at the top rank is attained there. -/
theorem C3_fdr_bh_max (ps : List ℚ) (k : ℕ) (hk : k < ps.length)
    (hnn : ∀ p ∈ ps, 0 ≤ p) (hmax : ∀ p ∈ ps, p ≤ ps.getD k 0) :
    (fdr_bh ps).length = ps.length ∧
    (fdr_bh ps).getD k 0 = ps.getD k 0 := by
  have hlen : (fdr_bh ps).length = ps.length := by simp [fdr_bh]
  refine ⟨hlen, ?_⟩
  set m := ps.length with hm
  set pmax := ps.getD k 0 with hpm
  have hperm : List.Perm (bh_sorted ps) ps.enum :=
    List.perm_insertionSort bhLe ps.enum
  have hslen : (bh_sorted ps).length = m := by
    rw [hperm.length_eq, List.enum_length]
  have hpmax_get : pmax = ps[k] := List.getD_eq_getElem ps 0 hk
  have hmem_enum : (k, pmax) ∈ ps.enum := by
    rw [List.mk_mem_enum_iff_getElem?, List.getElem?_eq_getElem hk, hpmax_get]
  have hmem_sorted : (k, pmax) ∈ bh_sorted ps := hperm.mem_iff.mpr hmem_enum
  have hval : ∀ e ∈ bh_sorted ps, 0 ≤ e.2 ∧ e.2 ≤ pmax := by
    intro e he
    have he2 : (e.1, e.2) ∈ ps.enum := hperm.mem_iff.mp he
    have hsome : ps[e.1]? = some e.2 := List.mk_mem_enum_iff_getElem?.mp he2
    have hmem : e.2 ∈ ps := List.getElem?_mem hsome
    exact ⟨hnn _ hmem, hmax _ hmem⟩
  have hknodup : ((bh_sorted ps).map Prod.fst).Nodup := by
    rw [(hperm.map Prod.fst).nodup_iff, List.enum_map_fst]
    exact List.nodup_range _
  have hsorted : List.Sorted bhLe (bh_sorted ps) :=
    List.sorted_insertionSort bhLe ps.enum
  obtain ⟨i, hfind⟩ :
      ∃ i, (bh_sorted ps).findIdx? (fun e => e.1 == k) = some i := by
    cases hcase : (bh_sorted ps).findIdx? (fun e => e.1 == k) with
    | some i => exact ⟨i, rfl⟩
    | none =>
      exfalso
      have := List.findIdx?_eq_none_iff.mp hcase (k, pmax) hmem_sorted
      simp at this
  obtain ⟨hi, hpi, -⟩ := List.findIdx?_eq_some_iff_getElem.mp hfind
  have hkey : ((bh_sorted ps)[i]).1 = k := by simpa using hpi
  have hentry : (bh_sorted ps)[i] = (k, pmax) :=
    List.inj_on_of_nodup_map hknodup (List.getElem_mem hi) hmem_sorted
      (by simpa using hkey)
  have hi_lt : i < m := by rwa [hslen] at hi
  have hm_pos : 0 < m := Nat.lt_of_le_of_lt (Nat.zero_le k) hk
  have hpmax_nn : 0 ≤ pmax := (hval _ hmem_sorted).1
  have hsuffix : ∀ j, (hj : j < m) → i ≤ j → ((bh_sorted ps)[j]).2 = pmax := by
    intro j hj hij
    have hj' : j < (bh_sorted ps).length := by rwa [hslen]
    have hle : bhLe ((bh_sorted ps).get ⟨i, hi⟩) ((bh_sorted ps).get ⟨j, hj'⟩) :=
      hsorted.rel_get_of_le hij
    rw [List.get_eq_getElem, List.get_eq_getElem] at hle
    have hge : pmax ≤ ((bh_sorted ps)[j]).2 := by
      have h1 : ((bh_sorted ps)[i]).2 ≤ ((bh_sorted ps)[j]).2 := hle
      rwa [hentry] at h1
    exact le_antisymm ((hval _ (List.getElem_mem hj')).2) hge
  have hclen : (bh_cands ps).length = m := by
    simp [bh_cands, hslen]
  have hcget : ∀ j, (hj : j < m) → (hj2 : j < (bh_cands ps).length) →
      (bh_cands ps)[j] = ((bh_sorted ps)[j]).2 * (m : ℚ) / ((j : ℚ) + 1) := by
    intro j hj hj2
    simp [bh_cands, List.getElem_enum]
  have hcands_ge : ∀ j, (hj : j < m) → (hj2 : j < (bh_cands ps).length) →
      i ≤ j → pmax ≤ (bh_cands ps)[j] := by
    intro j hj hj2 hij
    rw [hcget j hj hj2, hsuffix j hj hij]
    exact le_mul_div_of_le hpmax_nn (by omega)
  have hm1 : m - 1 < (bh_cands ps).length := by rw [hclen]; omega
  have hlast : (bh_cands ps)[m - 1] = pmax := by
    rw [hcget (m - 1) (by omega) hm1,
      hsuffix (m - 1) (by omega) (by omega)]
    have hcast : ((m - 1 : ℕ) : ℚ) + 1 = (m : ℚ) := by
      rw [Nat.cast_sub hm_pos]
      ring
    rw [hcast, mul_div_assoc, div_self (by exact_mod_cast hm_pos.ne'), mul_one]
  have hi_c : i < (bh_cands ps).length := by rwa [hclen]
  have hmin : min_from (bh_cands ps) i = pmax := by
    rw [min_from_eq_foldl hi_c]
    apply foldl_min_eq_of_mem
    · rcases Nat.lt_or_ge i (m - 1) with hlt | hge
      · right
        rw [List.mem_iff_getElem]
        refine ⟨m - 1 - (i + 1), by rw [List.length_drop, hclen]; omega, ?_⟩
        rw [List.getElem_drop]
        have hidx : i + 1 + (m - 1 - (i + 1)) = m - 1 := by omega
        simp only [hidx]
        exact hlast
      · left
        have hieq : i = m - 1 := by omega
        subst hieq
        exact hlast.symm
    · exact hcands_ge i hi_lt hi_c le_rfl
    · intro y hy
      rw [List.mem_iff_getElem] at hy
      obtain ⟨j, hj, rfl⟩ := hy
      rw [List.getElem_drop]
      have hjlen : j < (bh_cands ps).length - (i + 1) := by
        rwa [List.length_drop] at hj
      exact hcands_ge (i + 1 + j) (by rw [hclen] at hjlen; omega)
        (by rw [hclen] at hjlen ⊢; omega) (by omega)
  have hk' : k < (fdr_bh ps).length := by rwa [hlen]
  have hget : (fdr_bh ps).getD k 0 = (fdr_bh ps)[k] :=
    List.getD_eq_getElem (fdr_bh ps) 0 hk'
  have hfdr : (fdr_bh ps)[k] =
      match (bh_sorted ps).findIdx? (fun e => e.1 == k) with
      | some i => min_from (bh_cands ps) i
      | none => 0 := by
    simp [fdr_bh, List.getElem_range]
  rw [hget, hfdr, hfind]
  exact hmin

/-- Witness for C3 at the batch `[1/2]`: the single (hence largest) raw
p-value keeps its value after correction. -/
theorem C3_fdr_bh_max_witness :
    (fdr_bh [(1 : ℚ) / 2]).length = [(1 : ℚ) / 2].length ∧
    (fdr_bh [(1 : ℚ) / 2]).getD 0 0 = ([(1 : ℚ) / 2]).getD 0 0 :=
  C3_fdr_bh_max [(1 : ℚ) / 2] 0 (by simp)
    (by
      intro p hp
      rw [List.mem_singleton] at hp
      subst hp
      norm_num)
    (by
      intro p hp
      rw [List.mem_singleton] at hp
      subst hp
      simp)

end Babappa
